import Mathlib

/-!
Verification of the JSON prolly-tree chunker of
`go/store/prolly/tree/json_chunker.go`.

Bytes are modelled as `Nat`, byte slices as `List Nat`, and Go `nil` slices as
`Option.none` (the distinction between a nil and a non-nil buffer is
load-bearing in `Done`).  Components that the chunker calls but whose source is
not part of this tree — the JSON scanner, the boundary-test constants and
hashes, the node store, the generic interior chunker and the tree cursor — are
modelled from the specification; every such definition carries a doc comment
beginning with "Modelled from the spec".  Content addresses are idealized as
the node content itself (a perfect digest), so an address map entry stores the
child node directly.
-/

/-- One step of a JSON path: an object key or an array index
(spec section 3, "JSON path step"). -/
inductive jsonPathElement where
  | objectKey (k : List Nat)
  | arrayIndex (i : Nat)
deriving DecidableEq, Repr

/-- Modelled from the spec: the marker part of a JSON location.  Besides
start-of-value and end-of-value we keep the two "initial element" markers so
that the scanner can report whether a sibling has already been emitted at the
current container. -/
inductive jsonPathType where
  | startOfValue
  | objectInitialElement
  | arrayInitialElement
  | endOfValue
deriving DecidableEq, Repr

/-- A JSON location: a path together with a marker (spec section 3). -/
structure jsonLocation where
  elements : List jsonPathElement
  pathType : jsonPathType
deriving DecidableEq, Repr

/-- Modelled from the spec (section 4.2): the byte that encodes the marker;
the end-of-value byte of the empty path is the reserved highest byte that
denotes end-of-document. -/
def pathTypeByte : jsonPathType → Nat
  | .startOfValue => 240
  | .objectInitialElement => 241
  | .arrayInitialElement => 242
  | .endOfValue => 255

/-- Modelled from the spec (section 4.2): object keys are length-prefixed,
array indices are fixed-width big-endian. -/
def encodePathElement : jsonPathElement → List Nat
  | .objectKey k => 1 :: k.length :: k
  | .arrayIndex i => [2, i / 256, i % 256]

def encodeElements : List jsonPathElement → List Nat
  | [] => []
  | e :: rest => encodePathElement e ++ encodeElements rest

/-- The encoded location, the byte string used as the chunk key
(`currentPath.key` in the source). -/
def jsonLocation.key (loc : jsonLocation) : List Nat :=
  encodeElements loc.elements ++ [pathTypeByte loc.pathType]

/-- The end-of-document sentinel key; `[]byte{byte(endOfValue)}` in
`Done` (json_chunker.go line 128). -/
def endOfDocumentKey : List Nat := [pathTypeByte .endOfValue]

/-- Modelled from the spec (section 4.1): the streaming scanner state is a
buffer reference, a byte offset, and the current path. -/
structure JsonScanner where
  jsonBuffer : Option (List Nat)
  currentPath : jsonLocation
  valueOffset : Nat
deriving Repr

/-- The bytes of the scanner buffer; a nil buffer reads as no bytes. -/
def bufList (s : JsonScanner) : List Nat := s.jsonBuffer.getD []

/-- Modelled from the spec (section 4.1): an empty-path scanner at offset 0. -/
def ScanJsonFromBeginning (buf : Option (List Nat)) : JsonScanner :=
  { jsonBuffer := buf
    currentPath := { elements := [], pathType := .startOfValue }
    valueOffset := 0 }

/-- Modelled from the spec (section 4.1): a scanner whose path is pre-seeded,
used after a chunk cut. -/
def ScanJsonFromMiddle (buf : Option (List Nat)) (path : jsonLocation) : JsonScanner :=
  { jsonBuffer := buf, currentPath := path, valueOffset := 0 }

/-- Modelled from the spec (section 4.1): advance the offset without
re-scanning. -/
def JsonScanner.skipBytes (s : JsonScanner) (n : Nat) : JsonScanner :=
  { s with valueOffset := s.valueOffset + n }

/-- Modelled from the spec (section 4.1): true iff the offset equals the
buffer length. -/
def JsonScanner.atEndOfChunk (s : JsonScanner) : Bool :=
  s.valueOffset == (bufList s).length

/-- Modelled from the spec (section 4.1): true iff no sibling has yet been
emitted at the current container. -/
def JsonScanner.firstElementOrEndOfEmptyValue (s : JsonScanner) : Bool :=
  match s.currentPath.pathType with
  | .objectInitialElement => true
  | .arrayInitialElement => true
  | _ => false

/-- Modelled from the spec: scan for the closing quote of a JSON string.
`esc` records that the previous byte was a backslash.  Returns the offset of
the closing quote, or `none` if the buffer is exhausted mid-string. -/
def strEndOffAux : Bool → List Nat → Option Nat
  | _, [] => none
  | true, _ :: rest => (strEndOffAux false rest).map (· + 1)
  | false, b :: rest =>
    if b == 34 then some 0
    else if b == 92 then (strEndOffAux true rest).map (· + 1)
    else (strEndOffAux false rest).map (· + 1)

def strEndOff (l : List Nat) : Option Nat := strEndOffAux false l

/-- Modelled from the spec: the length of a scalar value, which ends at the
first separator or closer byte; `none` if the buffer is exhausted first. -/
def scalarEndOff : List Nat → Option Nat
  | [] => none
  | b :: rest =>
    if b == 44 || b == 125 || b == 93 then some 0
    else (scalarEndOff rest).map (· + 1)

theorem strEndOffAux_lt (l : List Nat) : ∀ (esc : Bool) (n : Nat),
    strEndOffAux esc l = some n → n < l.length := by
  induction l with
  | nil => intro esc n h; simp [strEndOffAux] at h
  | cons b rest ih =>
    intro esc n h
    cases esc with
    | true =>
      simp only [strEndOffAux, Option.map_eq_some'] at h
      obtain ⟨m, hm, rfl⟩ := h
      have := ih false m hm
      simp only [List.length_cons]
      omega
    | false =>
      simp only [strEndOffAux] at h
      split at h
      · simp only [Option.some.injEq] at h
        simp only [List.length_cons]
        omega
      · split at h <;>
        · simp only [Option.map_eq_some'] at h
          obtain ⟨m, hm, rfl⟩ := h
          have := ih _ m hm
          simp only [List.length_cons]
          omega

theorem strEndOff_lt (l : List Nat) (n : Nat) (h : strEndOff l = some n) :
    n < l.length :=
  strEndOffAux_lt l false n h

theorem scalarEndOff_lt (l : List Nat) : ∀ (n : Nat),
    scalarEndOff l = some n → n < l.length := by
  induction l with
  | nil => intro n h; simp [scalarEndOff] at h
  | cons b rest ih =>
    intro n h
    simp only [scalarEndOff] at h
    split at h
    · simp only [Option.some.injEq] at h
      simp only [List.length_cons]
      omega
    · simp only [Option.map_eq_some'] at h
      obtain ⟨m, hm, rfl⟩ := h
      have := ih m hm
      simp only [List.length_cons]
      omega

theorem get?_some_lt {α : Type} (l : List α) (i : Nat) (a : α)
    (h : l.get? i = some a) : i < l.length := by
  by_contra hle
  rw [List.get?_eq_none.mpr (by omega)] at h
  exact Option.noConfusion h

/-- Modelled from the spec: parse a quoted object key followed by a colon,
as appears after an opening brace or an object comma.  Returns the number of
bytes consumed and the key bytes. -/
def keyAfterBrace (rest : List Nat) : Option (Nat × List Nat) :=
  match rest with
  | [] => none
  | b :: rest2 =>
    if b == 34 then
      match strEndOff rest2 with
      | some n => if rest2.get? (n + 1) == some 58 then some (n + 3, rest2.take n) else none
      | none => none
    else none

theorem keyAfterBrace_bound (rest : List Nat) (c : Nat) (k : List Nat)
    (h : keyAfterBrace rest = some (c, k)) : 3 ≤ c ∧ c ≤ rest.length := by
  cases rest with
  | nil => exact Option.noConfusion h
  | cons b rest2 =>
    simp only [keyAfterBrace] at h
    split at h
    · split at h
      case h_1 n hn =>
        split at h
        case isTrue hcolon =>
          simp only [Option.some.injEq, Prod.mk.injEq] at h
          obtain ⟨rfl, rfl⟩ := h
          have hcolon2 : rest2.get? (n + 1) = some 58 := beq_iff_eq.mp hcolon
          have := get?_some_lt rest2 (n + 1) 58 hcolon2
          simp only [List.length_cons]
          omega
        case isFalse => exact Option.noConfusion h
      case h_2 => exact Option.noConfusion h
    · exact Option.noConfusion h

/-- Modelled from the spec (section 4.1): the next value stop.  One call
consumes exactly one of: a container opening (together with the first object
key when present), a container closing, a separator (together with the next
object key), a string scalar, or a non-string scalar.  Returns the number of
bytes consumed and the updated location, or `none` when the buffer is
exhausted (io.EOF). -/
def nextStop (loc : jsonLocation) (buf : List Nat) : Option (Nat × jsonLocation) :=
  match buf with
  | [] => none
  | b :: rest =>
    if b == 123 then
      match keyAfterBrace rest with
      | some (c, k) =>
          some (1 + c, { elements := loc.elements ++ [.objectKey k],
                         pathType := .objectInitialElement })
      | none =>
          some (1, { elements := loc.elements ++ [.objectKey []],
                     pathType := .objectInitialElement })
    else if b == 91 then
      some (1, { elements := loc.elements ++ [.arrayIndex 0],
                 pathType := .arrayInitialElement })
    else if b == 125 || b == 93 then
      match loc.elements with
      | [] => none
      | _ :: _ => some (1, { elements := loc.elements.dropLast, pathType := .endOfValue })
    else if b == 44 then
      match loc.elements.getLast? with
      | some (.arrayIndex i) =>
          some (1, { elements := loc.elements.dropLast ++ [.arrayIndex (i + 1)],
                     pathType := .startOfValue })
      | some (.objectKey _) =>
          match keyAfterBrace rest with
          | some (c, k) =>
              some (1 + c, { elements := loc.elements.dropLast ++ [.objectKey k],
                             pathType := .startOfValue })
          | none => none
      | none => none
    else if b == 34 then
      match strEndOff rest with
      | some n => some (n + 2, { elements := loc.elements, pathType := .endOfValue })
      | none => none
    else
      match scalarEndOff (b :: rest) with
      | some n => some (n, { elements := loc.elements, pathType := .endOfValue })
      | none => none

theorem nextStop_bound (loc : jsonLocation) (buf : List Nat) (n : Nat)
    (p : jsonLocation) (h : nextStop loc buf = some (n, p)) :
    1 ≤ n ∧ n ≤ buf.length := by
  cases buf with
  | nil => exact Option.noConfusion h
  | cons b rest =>
    simp only [nextStop] at h
    split at h
    -- opening brace
    · split at h
      case h_1 c k hk =>
        simp only [Option.some.injEq, Prod.mk.injEq] at h
        obtain ⟨rfl, rfl⟩ := h
        have := keyAfterBrace_bound rest c k hk
        simp only [List.length_cons]
        omega
      case h_2 =>
        simp only [Option.some.injEq, Prod.mk.injEq] at h
        obtain ⟨rfl, rfl⟩ := h
        simp only [List.length_cons]
        omega
    · split at h
      -- opening bracket
      · simp only [Option.some.injEq, Prod.mk.injEq] at h
        obtain ⟨rfl, rfl⟩ := h
        simp only [List.length_cons]
        omega
      · split at h
        -- closer
        · split at h
          · exact Option.noConfusion h
          · simp only [Option.some.injEq, Prod.mk.injEq] at h
            obtain ⟨rfl, rfl⟩ := h
            simp only [List.length_cons]
            omega
        · split at h
          -- comma
          · split at h
            case h_1 i hi =>
              simp only [Option.some.injEq, Prod.mk.injEq] at h
              obtain ⟨rfl, rfl⟩ := h
              simp only [List.length_cons]
              omega
            case h_2 k hk =>
              split at h
              case h_1 c k2 hk2 =>
                simp only [Option.some.injEq, Prod.mk.injEq] at h
                obtain ⟨rfl, rfl⟩ := h
                have := keyAfterBrace_bound rest c k2 hk2
                simp only [List.length_cons]
                omega
              case h_2 => exact Option.noConfusion h
            case h_3 => exact Option.noConfusion h
          · split at h
            -- string scalar
            · split at h
              case h_1 m hm =>
                simp only [Option.some.injEq, Prod.mk.injEq] at h
                obtain ⟨rfl, rfl⟩ := h
                have := strEndOff_lt rest m hm
                simp only [List.length_cons]
                omega
              case h_2 => exact Option.noConfusion h
            -- non-string scalar
            · split at h
              case h_1 m hm =>
                simp only [Option.some.injEq, Prod.mk.injEq] at h
                obtain ⟨rfl, rfl⟩ := h
                have hlt := scalarEndOff_lt (b :: rest) m hm
                rename_i h123 h91 hclose hcomma hquote
                have hm1 : 1 ≤ m := by
                  have hcond : (b == 44 || b == 125 || b == 93) = false := by
                    simp only [Bool.or_eq_true, beq_iff_eq, not_or] at h123 h91 hclose hcomma hquote
                    simp only [Bool.or_eq_false_iff, beq_eq_false_iff_ne, ne_eq]
                    omega
                  simp only [scalarEndOff, hcond, Bool.false_eq_true, if_false,
                    Option.map_eq_some'] at hm
                  obtain ⟨m2, _, rfl⟩ := hm
                  omega
                exact ⟨hm1, by omega⟩
              case h_2 => exact Option.noConfusion h

/-- Modelled from the spec (section 4.1): `AdvanceToNextLocation`.  `none`
models the io.EOF return; the scanner is unchanged in that case. -/
def JsonScanner.AdvanceToNextLocation (s : JsonScanner) : Option JsonScanner :=
  (nextStop s.currentPath ((bufList s).drop s.valueOffset)).map
    fun p => { s with valueOffset := s.valueOffset + p.1, currentPath := p.2 }

theorem advance_progress (s s2 : JsonScanner)
    (h : s.AdvanceToNextLocation = some s2) :
    s2.jsonBuffer = s.jsonBuffer ∧ s.valueOffset < s2.valueOffset ∧
      s2.valueOffset ≤ (bufList s).length := by
  unfold JsonScanner.AdvanceToNextLocation at h
  simp only [Option.map_eq_some'] at h
  obtain ⟨⟨n, p⟩, hn, rfl⟩ := h
  have hb := nextStop_bound _ _ _ _ hn
  have hdrop : ((bufList s).drop s.valueOffset).length = (bufList s).length - s.valueOffset := by
    simp [List.length_drop]
  refine ⟨rfl, by simp; omega, ?_⟩
  simp only
  omega

/-- Modelled from the spec (sections 3 and 4.5): a tree node.  Leaves hold one
document segment; interior nodes hold the ordered (boundary key, child address)
pairs.  Addresses are idealized as the child node itself. -/
inductive Node where
  | leaf (bytes : List Nat)
  | interior (entries : List (List Nat × Node))

/-- The document segment stored in a leaf node. -/
def Node.leafContent : Node → List Nat
  | .leaf bytes => bytes
  | .interior _ => []

/-- Modelled from the spec (section 6): the node store.  `ns n = some e` means
that writing node `n` fails with error `e`; otherwise the write succeeds and
returns the (idealized) content address, the node itself. -/
abbrev NodeStore (ε : Type) := Node → Option ε

/-- The bytes of a list of (key, leaf address) pairs, concatenated in order. -/
def emittedBytes : List (List Nat × Node) → List Nat
  | [] => []
  | p :: rest => p.2.leafContent ++ emittedBytes rest

/-- Reassembling a tree root: concatenate the leaves in key order
(the interior chunker receives its pairs in strictly increasing key order,
so entry order is key order). -/
def reassemble : Node → List Nat
  | .leaf bytes => bytes
  | .interior entries => emittedBytes entries

/-- The leaf lengths of a root node, in key order. -/
def leafLens : Node → List Nat
  | .leaf bytes => [bytes.length]
  | .interior entries => entries.map fun p => p.2.leafContent.length

/-- Modelled from the spec (sections 4.3 and 9): the process-wide splitter
parameters — chunk bounds, per-level salt table, seeded hash and Weibull
acceptance test.  Their definitions live outside the sources of this tree, so
they are carried as parameters. -/
structure SplitterConfig where
  minChunkSize : Nat
  maxChunkSize : Nat
  levelSalt : Nat → Nat
  xxHash32 : List Nat → Nat → Nat
  weibullCheck : Nat → Nat → Nat → Bool

/-- crossesBoundary (json_chunker.go lines 229-243): whether a JSON segment
ending at a specific location is a chunk boundary.  The source computes
`thisSize := uint32(len(buf))`, truncating the length to 32 bits, so the size
compared against the bounds and fed to the Weibull test is the length
modulo 2 ^ 32. -/
def crossesBoundary (cfg : SplitterConfig) (key : List Nat) (buf : List Nat) : Bool :=
  let salt := cfg.levelSalt 0
  let thisSize := buf.length % 2 ^ 32
  if thisSize < cfg.minChunkSize then false
  else if thisSize > cfg.maxChunkSize then true
  else cfg.weibullCheck thisSize thisSize (cfg.xxHash32 key salt)

/-- Modelled from the spec (section 4.4): a tree cursor, reduced to the
(key, leaf bytes) entries from its current leaf to the end of the document.
`currentValue` is the head entry's bytes, `advance` drops the head,
`Valid` is nonemptiness. -/
structure TreeCursor where
  remaining : List (List Nat × List Nat)

/-- Modelled from the spec (section 4.4): a JSON cursor: a tree cursor plus an
embedded scanner whose `valueOffset` marks the splice point inside the current
leaf. -/
structure JsonCursor where
  cur : TreeCursor
  jsonScanner : JsonScanner

/-- JsonChunker (json_chunker.go lines 35-40).  The level-1 interior chunker is
modelled from the spec as the ordered list of (key, address) pairs appended so
far via AddPair. -/
structure JsonChunker (ε : Type) where
  jCur : Option JsonCursor
  jScanner : JsonScanner
  chunker : List (List Nat × Node)
  ns : NodeStore ε

/-- The error type surfaced by Done and SerializeJsonToAddr: an error from a
collaborator, or the out-of-range panic of an unchecked index. -/
inductive ChunkError (ε : Type) where
  | err (e : ε)
  | indexOutOfRange

/-- appendJsonToBuffer (json_chunker.go lines 199-205): appends to the scanner
buffer; a nil buffer is replaced by the new bytes. -/
def appendJsonToBuffer {ε : Type} (j : JsonChunker ε) (jsonBytes : List Nat) : JsonChunker ε :=
  match j.jScanner.jsonBuffer with
  | none => { j with jScanner := { j.jScanner with jsonBuffer := some jsonBytes } }
  | some buf => { j with jScanner := { j.jScanner with jsonBuffer := some (buf ++ jsonBytes) } }

/-- appendJsonWithoutSplitting (json_chunker.go lines 192-195): append and skip
the scanner past the new bytes so they are never scanned for boundaries. -/
def appendJsonWithoutSplitting {ε : Type} (j : JsonChunker ε) (jsonBytes : List Nat) :
    JsonChunker ε :=
  let j1 := appendJsonToBuffer j jsonBytes
  { j1 with jScanner := j1.jScanner.skipBytes jsonBytes.length }

/-- Modelled from the spec: getLastPathElement returns the final path step and
whether it is an array index.  The key bytes are only used when the step is an
object key; calling this on the empty path is a precondition violation
(spec section 7, kind 4), modelled arbitrarily. -/
def jsonLocation.getLastPathElement (loc : jsonLocation) : List Nat × Bool :=
  match loc.elements.getLast? with
  | some (.objectKey k) => (k, false)
  | some (.arrayIndex _) => ([], true)
  | none => ([], false)

/-- The bytes appended for an object key: a quote, the key, a quote and a
colon (the Sprintf in json_chunker.go line 123). -/
def quotedKey (k : List Nat) : List Nat := 34 :: (k ++ [34, 58])

/-- writeKey (json_chunker.go lines 114-125): append a comma when the insertion
is not the first element of its container, then the quoted key and colon when
the path points into an object. -/
def writeKey {ε : Type} (j : JsonChunker ε) (keyPath : jsonLocation) : JsonChunker ε :=
  let fe := keyPath.getLastPathElement
  let isFirstValue := j.jScanner.firstElementOrEndOfEmptyValue
  let j1 := if !isFirstValue then appendJsonWithoutSplitting j [44] else j
  if !fe.2 then appendJsonWithoutSplitting j1 (quotedKey fe.1) else j1

/-- createNewLeafChunk (json_chunker.go lines 174-187): serialize the value as
a Blob node, write it to the node store, and append the (key, address) pair to
the interior chunker.  The blob serializer and NodeFromBytes round-trip is
abstracted into the `Node.leaf` constructor. -/
def createNewLeafChunk {ε : Type} (j : JsonChunker ε) (key value : List Nat) :
    Except ε (JsonChunker ε) :=
  match j.ns (Node.leaf value) with
  | some e => .error e
  | none => .ok { j with chunker := j.chunker ++ [(key, Node.leaf value)] }

/-- processBuffer (json_chunker.go lines 209-227), with an explicit fuel
counter for the scan loop.  Each iteration consumes at least one buffer byte
(`advance_progress`) and a cut never adds bytes, so fuel `length + 1` — as used
by `processBuffer` below — never runs out.  On a store error the loop stops and
reports the error, with the scanner advanced past the failed cut but not
replaced, exactly as the Go code returns mid-loop. -/
def processBufferF {ε : Type} (cfg : SplitterConfig) :
    Nat → JsonChunker ε → JsonChunker ε × Option ε
  | 0, j => (j, none)
  | fuel + 1, j =>
    match j.jScanner.AdvanceToNextLocation with
    | none => (j, none)
    | some s2 =>
      let key := s2.currentPath.key
      let value := (bufList s2).take s2.valueOffset
      if crossesBoundary cfg key value then
        match createNewLeafChunk { j with jScanner := s2 } key value with
        | .error e => ({ j with jScanner := s2 }, some e)
        | .ok j2 =>
          let newBuffer : Option (List Nat) :=
            if s2.atEndOfChunk then none else some ((bufList s2).drop s2.valueOffset)
          processBufferF cfg fuel { j2 with jScanner := ScanJsonFromMiddle newBuffer s2.currentPath }
      else
        processBufferF cfg fuel { j with jScanner := s2 }

/-- processBuffer: scan all buffered bytes, cutting a new leaf at every
location where `crossesBoundary` fires. -/
def processBuffer {ε : Type} (cfg : SplitterConfig) (j : JsonChunker ε) :
    JsonChunker ε × Option ε :=
  processBufferF cfg ((bufList j.jScanner).length + 1) j

/-- Modelled from the spec: the graft of the remainder of the original tree
performed by the seeded interior chunker on finalization — each not-yet-consumed
original leaf contributes its (key, address) pair unchanged. -/
def graftPairs (rem : List (List Nat × List Nat)) : List (List Nat × Node) :=
  rem.map fun e => (e.1, Node.leaf e.2)

/-- The final-leaf step shared by both exits without re-synchronization
(json_chunker.go lines 131-136 and 161-166): emit the remaining buffer as the
final leaf under the end-of-document key and finalize the interior chunker. -/
def doneFinalLeaf {ε : Type} (j : JsonChunker ε) : Except (ChunkError ε) Node :=
  match createNewLeafChunk j endOfDocumentKey (bufList j.jScanner) with
  | .error e => .error (.err e)
  | .ok j2 => .ok (.interior j2.chunker)

/-- The splice loop of Done (json_chunker.go lines 148-169): append the current
bytes, process them, and either re-synchronize (buffer emptied exactly: advance
the cursor past the current leaf and let the interior chunker graft the rest of
the original tree), or advance to the next original leaf, emitting a final
end-of-document leaf when the cursor is exhausted.  `rem` is the cursor's
remaining leaf entries, current leaf first; the error of the processBuffer call
is discarded exactly as in the source (line 150). -/
def spliceLoop {ε : Type} (cfg : SplitterConfig) (rem : List (List Nat × List Nat))
    (j : JsonChunker ε) (jsonBytes : List Nat) : Except (ChunkError ε) Node :=
  if (processBuffer cfg (appendJsonToBuffer j jsonBytes)).1.jScanner.jsonBuffer = none then
    .ok (.interior ((processBuffer cfg (appendJsonToBuffer j jsonBytes)).1.chunker
        ++ graftPairs (rem.drop 1)))
  else
    match rem with
    | [] => doneFinalLeaf (processBuffer cfg (appendJsonToBuffer j jsonBytes)).1
    | [_] => doneFinalLeaf (processBuffer cfg (appendJsonToBuffer j jsonBytes)).1
    | _ :: e2 :: rest =>
        spliceLoop cfg (e2 :: rest) (processBuffer cfg (appendJsonToBuffer j jsonBytes)).1 e2.2

/-- Done (json_chunker.go lines 127-170).  Without a cursor, the remaining
buffer becomes the final leaf.  With a cursor, the first remaining byte of the
spliced leaf is read unconditionally (`jsonBytes[0]`, line 144) — the Go panic
on an empty slice is modelled by the `indexOutOfRange` error — a separator
comma is synthesized when that byte is not a closer or comma, and the splice
loop runs until re-synchronization or cursor exhaustion. -/
def JsonChunker.Done {ε : Type} (cfg : SplitterConfig) (j : JsonChunker ε) :
    Except (ChunkError ε) Node :=
  match j.jCur with
  | none => doneFinalLeaf j
  | some jCur =>
    let cursorDecoder := jCur.jsonScanner
    let jsonBytes := (bufList cursorDecoder).drop cursorDecoder.valueOffset
    match jsonBytes with
    | [] => .error .indexOutOfRange
    | b :: rest =>
      let j2 := if b ≠ 125 ∧ b ≠ 93 ∧ b ≠ 44 then appendJsonToBuffer j [44] else j
      spliceLoop cfg jCur.cur.remaining j2 (b :: rest)

/-- newEmptyJsonChunker (json_chunker.go lines 68-82): fresh interior chunker
and a from-the-beginning scanner over a nil buffer. -/
def newEmptyJsonChunker {ε : Type} (ns : NodeStore ε) : JsonChunker ε :=
  { jCur := none
    jScanner := ScanJsonFromBeginning none
    chunker := []
    ns := ns }

/-- Modelled from the spec: the address map whose root an IndexedJsonDocument
already holds. -/
structure StaticJsonMap where
  Root : Node

/-- An already-indexed JSON document (its tree root is already stored). -/
structure IndexedJsonDocument where
  m : StaticJsonMap

/-- Modelled from the spec (section 6): the JSON value wrapper.  A wrapper is
either an already-indexed document, a value whose canonical marshalled bytes
are given, or a value whose marshalling fails. -/
inductive JSONWrapper (ε : Type) where
  | indexed (doc : IndexedJsonDocument)
  | wrapped (bytes : List Nat)
  | invalid (e : ε)

/-- Modelled from the spec (section 6): `MarshallJson(v) → bytes`, producing
the canonical serialization or an error. -/
def MarshallJson {ε : Type} : JSONWrapper ε → Except ε (List Nat)
  | .indexed _ => .ok []
  | .wrapped bytes => .ok bytes
  | .invalid e => .error e

/-- SerializeJsonToAddr (json_chunker.go lines 43-64).  An IndexedJsonDocument
returns its existing root; otherwise the value is marshalled, buffered,
processed — the error result of processBuffer on line 57 is discarded, exactly
as in the source — and finalized by Done. -/
def SerializeJsonToAddr {ε : Type} (cfg : SplitterConfig) (ns : NodeStore ε)
    (j : JSONWrapper ε) : Except (ChunkError ε) Node :=
  match j with
  | .indexed indexedJson => .ok indexedJson.m.Root
  | _ =>
    match MarshallJson j with
    | .error e => .error (.err e)
    | .ok jsonBytes =>
      let jsonChunker := newEmptyJsonChunker ns
      let jsonChunker := appendJsonToBuffer jsonChunker jsonBytes
      let jsonChunker := (processBuffer cfg jsonChunker).1
      jsonChunker.Done cfg

@[simp]
theorem emittedBytes_nil : emittedBytes [] = [] := rfl

@[simp]
theorem emittedBytes_cons (p : List Nat × Node) (rest : List (List Nat × Node)) :
    emittedBytes (p :: rest) = p.2.leafContent ++ emittedBytes rest := rfl

@[simp]
theorem emittedBytes_append (l1 l2 : List (List Nat × Node)) :
    emittedBytes (l1 ++ l2) = emittedBytes l1 ++ emittedBytes l2 := by
  induction l1 with
  | nil => rfl
  | cons p rest ih => simp [ih]

@[simp]
theorem leafContent_leaf (v : List Nat) : (Node.leaf v).leafContent = v := rfl

theorem createNewLeafChunk_ok {ε : Type} (j : JsonChunker ε) (key value : List Nat)
    (j2 : JsonChunker ε) (h : createNewLeafChunk j key value = .ok j2) :
    j2 = { j with chunker := j.chunker ++ [(key, Node.leaf value)] } ∧
      j.ns (Node.leaf value) = none := by
  unfold createNewLeafChunk at h
  split at h
  · exact Except.noConfusion h
  · rename_i hns
    simp only [Except.ok.injEq] at h
    exact ⟨h.symm, hns⟩

theorem createNewLeafChunk_error {ε : Type} (j : JsonChunker ε) (key value : List Nat)
    (e : ε) (h : createNewLeafChunk j key value = .error e) :
    j.ns (Node.leaf value) = some e := by
  unfold createNewLeafChunk at h
  split at h
  · rename_i hns
    simp only [Except.error.injEq] at h
    rw [hns, h]
  · exact Except.noConfusion h

theorem bufList_advance (s s2 : JsonScanner) (h : s.AdvanceToNextLocation = some s2) :
    bufList s2 = bufList s := by
  obtain ⟨hbuf, -, -⟩ := advance_progress _ _ h
  simp [bufList, hbuf]

/-- The byte-conservation invariant of processBuffer: the bytes emitted into
cut leaves plus the bytes still buffered are unchanged by a scan round. -/
theorem processBufferF_bytes {ε : Type} (cfg : SplitterConfig) (fuel : Nat) :
    ∀ j : JsonChunker ε,
      emittedBytes (processBufferF cfg fuel j).1.chunker
          ++ bufList (processBufferF cfg fuel j).1.jScanner
        = emittedBytes j.chunker ++ bufList j.jScanner := by
  induction fuel with
  | zero => intro j; rfl
  | succ fuel ih =>
    intro j
    cases hadv : j.jScanner.AdvanceToNextLocation with
    | none => simp [processBufferF, hadv]
    | some s2 =>
      have hbufl : bufList s2 = bufList j.jScanner := bufList_advance _ _ hadv
      simp only [processBufferF, hadv]
      by_cases hcut : crossesBoundary cfg s2.currentPath.key
          ((bufList s2).take s2.valueOffset) = true
      · rw [if_pos hcut]
        cases hcl : createNewLeafChunk { j with jScanner := s2 } s2.currentPath.key
            ((bufList s2).take s2.valueOffset) with
        | error e =>
          simp only [hcl]
          simpa [bufList] using hbufl
        | ok j2 =>
          obtain ⟨rfl, hns⟩ := createNewLeafChunk_ok _ _ _ _ hcl
          simp only [hcl]
          rw [ih]
          by_cases hend : s2.atEndOfChunk = true
          · have hlen : s2.valueOffset = (bufList s2).length := by
              simpa [JsonScanner.atEndOfChunk] using hend
            rw [if_pos hend]
            have h1 : bufList (ScanJsonFromMiddle none s2.currentPath) = [] := rfl
            simp only [emittedBytes_append, emittedBytes_cons, emittedBytes_nil,
              leafContent_leaf, List.append_nil, h1]
            rw [hlen, List.take_length, hbufl]
          · rw [if_neg hend]
            have h1 : bufList (ScanJsonFromMiddle
                (some ((bufList s2).drop s2.valueOffset)) s2.currentPath)
                = (bufList s2).drop s2.valueOffset := rfl
            simp only [emittedBytes_append, emittedBytes_cons, emittedBytes_nil,
              leafContent_leaf, List.append_nil, h1, List.append_assoc,
              List.take_append_drop]
            rw [hbufl]
      · rw [if_neg hcut]
        rw [ih]
        simpa [bufList] using hbufl

/-- processBuffer never touches the cursor. -/
theorem processBufferF_jCur {ε : Type} (cfg : SplitterConfig) (fuel : Nat) :
    ∀ j : JsonChunker ε, (processBufferF cfg fuel j).1.jCur = j.jCur := by
  induction fuel with
  | zero => intro j; rfl
  | succ fuel ih =>
    intro j
    cases hadv : j.jScanner.AdvanceToNextLocation with
    | none => simp [processBufferF, hadv]
    | some s2 =>
      simp only [processBufferF, hadv]
      by_cases hcut : crossesBoundary cfg s2.currentPath.key
          ((bufList s2).take s2.valueOffset) = true
      · rw [if_pos hcut]
        cases hcl : createNewLeafChunk { j with jScanner := s2 } s2.currentPath.key
            ((bufList s2).take s2.valueOffset) with
        | error e => simp [hcl]
        | ok j2 =>
          obtain ⟨rfl, hns⟩ := createNewLeafChunk_ok _ _ _ _ hcl
          simp only [hcl]
          rw [ih]
      · rw [if_neg hcut]
        rw [ih]

/-- The scanner buffer can only become nil through a cut that lands exactly at
the end of the buffer; a scan round keeps the buffer either nil or nonempty. -/
theorem processBufferF_buffer {ε : Type} (cfg : SplitterConfig) (fuel : Nat) :
    ∀ j : JsonChunker ε,
      (j.jScanner.jsonBuffer = none ∨ bufList j.jScanner ≠ []) →
      ((processBufferF cfg fuel j).1.jScanner.jsonBuffer = none ∨
        bufList (processBufferF cfg fuel j).1.jScanner ≠ []) := by
  induction fuel with
  | zero => intro j h; exact h
  | succ fuel ih =>
    intro j h
    cases hadv : j.jScanner.AdvanceToNextLocation with
    | none => simpa [processBufferF, hadv] using h
    | some s2 =>
      obtain ⟨hbuf, hoff1, hoff2⟩ := advance_progress _ _ hadv
      have hbufl : bufList s2 = bufList j.jScanner := by simp [bufList, hbuf]
      have hne : bufList j.jScanner ≠ [] := by
        intro hnil
        rw [hnil] at hoff2
        simp at hoff2
        omega
      simp only [processBufferF, hadv]
      by_cases hcut : crossesBoundary cfg s2.currentPath.key
          ((bufList s2).take s2.valueOffset) = true
      · rw [if_pos hcut]
        cases hcl : createNewLeafChunk { j with jScanner := s2 } s2.currentPath.key
            ((bufList s2).take s2.valueOffset) with
        | error e =>
          simp only [hcl]
          right
          simpa [bufList, hbuf] using hne
        | ok j2 =>
          obtain ⟨rfl, hns⟩ := createNewLeafChunk_ok _ _ _ _ hcl
          simp only [hcl]
          by_cases hend : s2.atEndOfChunk = true
          · rw [if_pos hend]
            exact ih _ (Or.inl rfl)
          · rw [if_neg hend]
            refine ih _ (Or.inr ?_)
            have hlen : s2.valueOffset ≠ (bufList s2).length := by
              simpa [JsonScanner.atEndOfChunk] using hend
            have hlt : s2.valueOffset < (bufList s2).length := by
              rw [hbufl] at hlen ⊢; omega
            have : bufList (ScanJsonFromMiddle
                (some ((bufList s2).drop s2.valueOffset)) s2.currentPath)
                = (bufList s2).drop s2.valueOffset := rfl
            rw [this]
            intro hnil
            have := List.drop_eq_nil_iff.mp hnil
            omega
      · rw [if_neg hcut]
        refine ih _ (Or.inr ?_)
        simpa [bufList, hbuf] using hne

/-- crossesBoundary only fires on segments of at least the minimum size: a cut
means the truncated size is at least minChunkSize, and the truncated size never
exceeds the length. -/
theorem crossesBoundary_min (cfg : SplitterConfig) (key buf : List Nat)
    (h : crossesBoundary cfg key buf = true) : cfg.minChunkSize ≤ buf.length := by
  unfold crossesBoundary at h
  by_cases hlt : buf.length % 2 ^ 32 < cfg.minChunkSize
  · rw [if_pos hlt] at h
    simp at h
  · have hmod : buf.length % 2 ^ 32 ≤ buf.length := Nat.mod_le _ _
    omega

/-- Every pair appended by processBuffer holds a leaf of at least the minimum
chunk size. -/
theorem processBufferF_minSize {ε : Type} (cfg : SplitterConfig) (fuel : Nat) :
    ∀ (j : JsonChunker ε) (p : List Nat × Node),
      p ∈ (processBufferF cfg fuel j).1.chunker →
      p ∈ j.chunker ∨ cfg.minChunkSize ≤ p.2.leafContent.length := by
  induction fuel with
  | zero => intro j p hp; exact Or.inl hp
  | succ fuel ih =>
    intro j p hp
    cases hadv : j.jScanner.AdvanceToNextLocation with
    | none =>
      rw [processBufferF] at hp
      simp only [hadv] at hp
      exact Or.inl hp
    | some s2 =>
      rw [processBufferF] at hp
      simp only [hadv] at hp
      by_cases hcut : crossesBoundary cfg s2.currentPath.key
          ((bufList s2).take s2.valueOffset) = true
      · rw [if_pos hcut] at hp
        cases hcl : createNewLeafChunk { j with jScanner := s2 } s2.currentPath.key
            ((bufList s2).take s2.valueOffset) with
        | error e =>
          simp only [hcl] at hp
          exact Or.inl hp
        | ok j2 =>
          obtain ⟨rfl, hns⟩ := createNewLeafChunk_ok _ _ _ _ hcl
          simp only [hcl] at hp
          rcases ih _ p hp with hmem | hsize
          · simp only [List.mem_append, List.mem_singleton] at hmem
            rcases hmem with hmem | rfl
            · exact Or.inl hmem
            · right
              simpa using crossesBoundary_min cfg _ _ hcut
          · exact Or.inr hsize
      · rw [if_neg hcut] at hp
        exact ih { j with jScanner := s2 } p hp

theorem appendJsonToBuffer_bufList {ε : Type} (j : JsonChunker ε) (bs : List Nat) :
    bufList (appendJsonToBuffer j bs).jScanner = bufList j.jScanner ++ bs := by
  cases h : j.jScanner.jsonBuffer <;> simp [appendJsonToBuffer, h, bufList]

@[simp]
theorem appendJsonToBuffer_chunker {ε : Type} (j : JsonChunker ε) (bs : List Nat) :
    (appendJsonToBuffer j bs).chunker = j.chunker := by
  cases h : j.jScanner.jsonBuffer <;> simp [appendJsonToBuffer, h]

@[simp]
theorem appendJsonToBuffer_jCur {ε : Type} (j : JsonChunker ε) (bs : List Nat) :
    (appendJsonToBuffer j bs).jCur = j.jCur := by
  cases h : j.jScanner.jsonBuffer <;> simp [appendJsonToBuffer, h]

/-- C1: for every document, if the full write `SerializeJsonToAddr` succeeds
then concatenating the leaf chunks of the returned root in key order
reproduces the canonical serialization byte-for-byte: each leaf is a
contiguous substring of the document beginning exactly after the previous
leaf's end. -/
theorem serializeJsonToAddr_reassemble {ε : Type} (cfg : SplitterConfig) (ns : NodeStore ε)
    (bs : List Nat) (root : Node)
    (h : SerializeJsonToAddr cfg ns (.wrapped bs) = .ok root) :
    reassemble root = bs := by
  have hjc : (processBuffer cfg (appendJsonToBuffer (newEmptyJsonChunker ns) bs)).1.jCur
      = none := processBufferF_jCur cfg _ _
  simp only [SerializeJsonToAddr, MarshallJson] at h
  rw [JsonChunker.Done] at h
  rw [hjc] at h
  rw [doneFinalLeaf] at h
  cases hcl : createNewLeafChunk
      (processBuffer cfg (appendJsonToBuffer (newEmptyJsonChunker ns) bs)).1
      endOfDocumentKey
      (bufList (processBuffer cfg (appendJsonToBuffer (newEmptyJsonChunker ns) bs)).1.jScanner)
      with
  | error e => rw [hcl] at h; exact Except.noConfusion h
  | ok j3 =>
    obtain ⟨rfl, hns⟩ := createNewLeafChunk_ok _ _ _ _ hcl
    rw [hcl] at h
    simp only [Except.ok.injEq] at h
    subst h
    have hb := processBufferF_bytes cfg
      ((bufList (appendJsonToBuffer (newEmptyJsonChunker ns) bs).jScanner).length + 1)
      (appendJsonToBuffer (newEmptyJsonChunker ns) bs)
    have h1 : emittedBytes (appendJsonToBuffer (newEmptyJsonChunker ns) bs).chunker
        = [] := rfl
    have h2 : bufList (appendJsonToBuffer (newEmptyJsonChunker ns) bs).jScanner = bs := rfl
    rw [h1, h2] at hb
    simp only [List.nil_append] at hb
    simp only [reassemble, emittedBytes_append, emittedBytes_cons, emittedBytes_nil,
      leafContent_leaf, List.append_nil]
    exact hb

/-- A store in which every write succeeds. -/
def nsOK : NodeStore Unit := fun _ => none

/-- A splitter configuration whose minimum size is larger than the example
documents, so no interior cut ever fires. -/
def cfgNone : SplitterConfig :=
  { minChunkSize := 1000
    maxChunkSize := 2000
    levelSalt := fun _ => 0
    xxHash32 := fun _ _ => 0
    weibullCheck := fun _ _ _ => false }

/-- A splitter configuration with tiny bounds and a never-accepting Weibull
test, which forces every cut to come from the maximum-size rule. -/
def cfgSmall : SplitterConfig :=
  { minChunkSize := 1
    maxChunkSize := 2
    levelSalt := fun _ => 0
    xxHash32 := fun _ _ => 0
    weibullCheck := fun _ _ _ => false }

/-- C1 witness: a concrete full write of the two-byte document and its
byte-for-byte reassembly. -/
theorem serializeJsonToAddr_reassemble_witness :
    SerializeJsonToAddr cfgNone nsOK (.wrapped [123, 125])
        = .ok (Node.interior [(endOfDocumentKey, Node.leaf [123, 125])])
      ∧ reassemble (Node.interior [(endOfDocumentKey, Node.leaf [123, 125])]) = [123, 125] :=
  ⟨rfl, serializeJsonToAddr_reassemble cfgNone nsOK [123, 125] _ rfl⟩

/-- C2 counterexample: the source truncates the length to uint32
(`thisSize := uint32(len(buf))`), so the claimed rule fails at a buffer of
exactly 2 ^ 32 bytes: its truncated size is 0, below the minimum, and the
predicate returns false even though the length exceeds maxChunkSize. -/
theorem crossesBoundary_wrap_cex :
    crossesBoundary cfgSmall [7] (List.replicate (2 ^ 32) 0) = false
    ∧ cfgSmall.maxChunkSize < (List.replicate (2 ^ 32) (0 : Nat)).length := by
  constructor
  · unfold crossesBoundary
    simp only [List.length_replicate, Nat.mod_self]
    norm_num [cfgSmall]
  · simp only [List.length_replicate]
    norm_num [cfgSmall]

/-- C2 (amended): with thisSize = length mod 2 ^ 32 — the uint32 truncation the
source applies to len(buf) — crossesBoundary returns false when thisSize is
below minChunkSize, true when thisSize is above maxChunkSize, and otherwise
the Weibull acceptance test applied to thisSize and the hash of the key under
the level-0 salt.  For every buffer shorter than 2 ^ 32 bytes this is the
original three-way rule on the length itself, and the decision is a pure
function of the key and the length. -/
theorem crossesBoundary_wrapped_spec (cfg : SplitterConfig) (key buf : List Nat) :
    crossesBoundary cfg key buf =
      (if buf.length % 2 ^ 32 < cfg.minChunkSize then false
       else if cfg.maxChunkSize < buf.length % 2 ^ 32 then true
       else cfg.weibullCheck (buf.length % 2 ^ 32) (buf.length % 2 ^ 32)
         (cfg.xxHash32 key (cfg.levelSalt 0)))
    ∧ (buf.length < 2 ^ 32 →
        crossesBoundary cfg key buf =
          (if buf.length < cfg.minChunkSize then false
           else if cfg.maxChunkSize < buf.length then true
           else cfg.weibullCheck buf.length buf.length (cfg.xxHash32 key (cfg.levelSalt 0))))
    ∧ ∀ buf2 : List Nat, buf2.length = buf.length →
        crossesBoundary cfg key buf2 = crossesBoundary cfg key buf := by
  refine ⟨rfl, ?_, ?_⟩
  · intro hlt
    unfold crossesBoundary
    rw [Nat.mod_eq_of_lt hlt]
  · intro buf2 hlen
    unfold crossesBoundary
    rw [hlen]

/-- C2 witness: at a concrete three-byte buffer the unwrapped three-way rule
holds, and a different buffer of the same length decides identically. -/
theorem crossesBoundary_wrapped_spec_witness :
    (crossesBoundary cfgSmall [7] [0, 0, 0] =
      (if ([0, 0, 0] : List Nat).length < cfgSmall.minChunkSize then false
       else if cfgSmall.maxChunkSize < ([0, 0, 0] : List Nat).length then true
       else cfgSmall.weibullCheck ([0, 0, 0] : List Nat).length ([0, 0, 0] : List Nat).length
         (cfgSmall.xxHash32 [7] (cfgSmall.levelSalt 0))))
    ∧ crossesBoundary cfgSmall [7] [1, 2, 3] = crossesBoundary cfgSmall [7] [0, 0, 0] :=
  ⟨(crossesBoundary_wrapped_spec cfgSmall [7] [0, 0, 0]).2.1 (by norm_num),
   (crossesBoundary_wrapped_spec cfgSmall [7] [0, 0, 0]).2.2 [1, 2, 3] rfl⟩

/-- C9: an input that is already an IndexedJsonDocument returns its existing
root unchanged, for every store and configuration — in particular for a store
in which every write fails, so no node is written and no marshalling occurs. -/
theorem serializeJsonToAddr_indexed {ε : Type} (cfg : SplitterConfig) (ns : NodeStore ε)
    (doc : IndexedJsonDocument) :
    SerializeJsonToAddr cfg ns (.indexed doc) = .ok doc.m.Root := rfl

/-- C10: Done on a chunker with a cursor reads the first remaining byte of the
cursor buffer unconditionally; when no byte remains past the splice point
(valueOffset at or beyond the buffer length) the access is out of bounds, which
the embedding surfaces as the indexOutOfRange outcome modelling the Go panic. -/
theorem done_cursor_outOfBounds {ε : Type} (cfg : SplitterConfig) (j : JsonChunker ε)
    (jc : JsonCursor) (h1 : j.jCur = some jc)
    (h2 : (bufList jc.jsonScanner).length ≤ jc.jsonScanner.valueOffset) :
    j.Done cfg = .error .indexOutOfRange := by
  rw [JsonChunker.Done, h1]
  have hnil : (bufList jc.jsonScanner).drop jc.jsonScanner.valueOffset = [] :=
    List.drop_eq_nil_iff.mpr h2
  simp only [hnil]

/-- A cursor whose scanner offset lies past the end of its buffer. -/
def jcW10 : JsonCursor :=
  { cur := { remaining := [] }
    jsonScanner :=
      { jsonBuffer := some [91]
        currentPath := { elements := [], pathType := .startOfValue }
        valueOffset := 5 } }

def jW10 : JsonChunker Unit :=
  { jCur := some jcW10, jScanner := ScanJsonFromBeginning none, chunker := [], ns := nsOK }

/-- C10 witness: the concrete out-of-bounds splice. -/
theorem done_cursor_outOfBounds_witness :
    JsonChunker.Done cfgNone jW10 = .error .indexOutOfRange :=
  done_cursor_outOfBounds cfgNone jW10 jcW10 rfl (by decide)

/-- C7: Done without a cursor emits the entire remaining buffer as one final
leaf keyed by the end-of-document sentinel and returns the finalized root of
the interior chunker; a store error on that final write surfaces instead. -/
theorem done_noCursor {ε : Type} (cfg : SplitterConfig) (j : JsonChunker ε)
    (h : j.jCur = none) :
    j.Done cfg =
      match j.ns (Node.leaf (bufList j.jScanner)) with
      | some e => .error (.err e)
      | none => .ok (Node.interior
          (j.chunker ++ [(endOfDocumentKey, Node.leaf (bufList j.jScanner))])) := by
  rw [JsonChunker.Done, h]
  rw [doneFinalLeaf, createNewLeafChunk]
  cases hns : j.ns (Node.leaf (bufList j.jScanner)) <;> simp [hns]

def jW7 : JsonChunker Unit :=
  { jCur := none
    jScanner := ScanJsonFromBeginning (some [123, 125])
    chunker := []
    ns := nsOK }

/-- C7 witness: a concrete cursor-less finalization. -/
theorem done_noCursor_witness :
    JsonChunker.Done cfgNone jW7
      = .ok (Node.interior [(endOfDocumentKey, Node.leaf [123, 125])]) :=
  (done_noCursor cfgNone jW7 rfl).trans rfl

/-- C8: Done on a splice synthesizes a separator comma — appending it to the
buffer — iff the first byte after the splice point is not a closing brace,
closing bracket or comma, and then runs the splice loop on that state. -/
theorem done_spliceComma {ε : Type} (cfg : SplitterConfig) (j : JsonChunker ε)
    (jc : JsonCursor) (b : Nat) (bs : List Nat) (h1 : j.jCur = some jc)
    (h2 : (bufList jc.jsonScanner).drop jc.jsonScanner.valueOffset = b :: bs) :
    j.Done cfg = spliceLoop cfg jc.cur.remaining
        (if b ≠ 125 ∧ b ≠ 93 ∧ b ≠ 44 then appendJsonToBuffer j [44] else j) (b :: bs)
    ∧ (appendJsonToBuffer j [44]).jScanner.jsonBuffer
        = some (bufList j.jScanner ++ [44]) := by
  constructor
  · rw [JsonChunker.Done, h1]
    simp only [h2]
  · cases hb : j.jScanner.jsonBuffer <;> simp [appendJsonToBuffer, hb, bufList]

/-- A splice cursor positioned one byte into a two-byte leaf, with a quote as
the next byte. -/
def jcW8 : JsonCursor :=
  { cur := { remaining := [([9], [44, 50])] }
    jsonScanner :=
      { jsonBuffer := some [123, 34]
        currentPath := { elements := [], pathType := .startOfValue }
        valueOffset := 1 } }

def jW8 : JsonChunker Unit :=
  { jCur := some jcW8, jScanner := ScanJsonFromBeginning (some [123]), chunker := [], ns := nsOK }

/-- C8 witness: the concrete splice whose next byte is a quote, so the comma is
appended to the buffer. -/
theorem done_spliceComma_witness :
    JsonChunker.Done cfgNone jW8
        = spliceLoop cfgNone jcW8.cur.remaining
            (if 34 ≠ 125 ∧ 34 ≠ 93 ∧ 34 ≠ 44 then appendJsonToBuffer jW8 [44] else jW8)
            [34]
      ∧ (appendJsonToBuffer jW8 [44]).jScanner.jsonBuffer
          = some (bufList jW8.jScanner ++ [44]) :=
  done_spliceComma cfgNone jW8 jcW8 34 [] rfl rfl

theorem appendJsonWithoutSplitting_spec {ε : Type} (j : JsonChunker ε) (bs : List Nat) :
    bufList (appendJsonWithoutSplitting j bs).jScanner = bufList j.jScanner ++ bs
    ∧ (appendJsonWithoutSplitting j bs).jScanner.valueOffset
        = j.jScanner.valueOffset + bs.length := by
  cases hb : j.jScanner.jsonBuffer <;>
    simp [appendJsonWithoutSplitting, appendJsonToBuffer, hb, bufList, JsonScanner.skipBytes]

/-- C6: writeKey appends a comma iff the scanner does not report the insertion
as the first element of its container, then appends the quoted key and colon
iff the last path element is an object key; the scanner offset advances past
exactly the appended bytes, so they are never re-scanned for boundaries. -/
theorem writeKey_spec {ε : Type} (j : JsonChunker ε) (keyPath : jsonLocation)
    (hne : keyPath.elements ≠ []) :
    bufList (writeKey j keyPath).jScanner
      = bufList j.jScanner
        ++ (if j.jScanner.firstElementOrEndOfEmptyValue then [] else [44])
        ++ (match keyPath.elements.getLast? with
            | some (.objectKey k) => quotedKey k
            | _ => ([] : List Nat))
    ∧ (writeKey j keyPath).jScanner.valueOffset
      = j.jScanner.valueOffset
        + (if j.jScanner.firstElementOrEndOfEmptyValue then 0 else 1)
        + (match keyPath.elements.getLast? with
           | some (.objectKey k) => (quotedKey k).length
           | _ => 0) := by
  cases hlast : keyPath.elements.getLast? with
  | none => exact absurd (List.getLast?_eq_none_iff.mp hlast) hne
  | some el =>
    cases el with
    | objectKey k =>
      cases hfe : j.jScanner.firstElementOrEndOfEmptyValue with
      | true =>
        simp only [writeKey, jsonLocation.getLastPathElement, hlast, hfe, Bool.not_true,
          Bool.false_eq_true, if_false, Bool.not_false, if_true]
        have h1 := appendJsonWithoutSplitting_spec j (quotedKey k)
        simp [h1.1, h1.2]
      | false =>
        simp only [writeKey, jsonLocation.getLastPathElement, hlast, hfe, Bool.not_false,
          if_true, Bool.not_true]
        have h1 := appendJsonWithoutSplitting_spec j [44]
        have h2 := appendJsonWithoutSplitting_spec (appendJsonWithoutSplitting j [44]) (quotedKey k)
        simp [h1.1, h1.2, h2.1, h2.2]
    | arrayIndex i =>
      cases hfe : j.jScanner.firstElementOrEndOfEmptyValue with
      | true =>
        simp [writeKey, jsonLocation.getLastPathElement, hlast, hfe]
      | false =>
        simp only [writeKey, jsonLocation.getLastPathElement, hlast, hfe, Bool.not_false,
          if_true]
        have h1 := appendJsonWithoutSplitting_spec j [44]
        simp [h1.1, h1.2]

def jW6 : JsonChunker Unit :=
  { jCur := none
    jScanner :=
      { jsonBuffer := some [123]
        currentPath := { elements := [], pathType := .startOfValue }
        valueOffset := 1 }
    chunker := []
    ns := nsOK }

def pathW6 : jsonLocation := { elements := [.objectKey [97]], pathType := .startOfValue }

/-- C6 witness: a concrete writeKey at a non-first object member. -/
theorem writeKey_spec_witness :
    bufList (writeKey jW6 pathW6).jScanner
      = bufList jW6.jScanner
        ++ (if jW6.jScanner.firstElementOrEndOfEmptyValue then [] else [44])
        ++ (match pathW6.elements.getLast? with
            | some (.objectKey k) => quotedKey k
            | _ => ([] : List Nat))
    ∧ (writeKey jW6 pathW6).jScanner.valueOffset
      = jW6.jScanner.valueOffset
        + (if jW6.jScanner.firstElementOrEndOfEmptyValue then 0 else 1)
        + (match pathW6.elements.getLast? with
           | some (.objectKey k) => (quotedKey k).length
           | _ => 0) :=
  writeKey_spec jW6 pathW6 (by decide)

/-- C4: during a splice round (append the incoming bytes, then processBuffer),
the scanner buffer is nil afterwards iff the cuts emitted exactly the whole
buffered byte sequence — that is, iff a cut landed exactly at the end of the
buffer.  In that case the splice loop inside Done stops, and the returned root
is the interior chunker's root: the pairs accumulated so far followed by the
graft of the original tree's remaining leaves after the cursor has been
advanced past the current one (`rem.drop 1`). -/
theorem processBuffer_resync {ε : Type} (cfg : SplitterConfig) (j : JsonChunker ε)
    (bs : List Nat) (rem : List (List Nat × List Nat))
    (hbs : bufList (appendJsonToBuffer j bs).jScanner ≠ []) :
    ((processBuffer cfg (appendJsonToBuffer j bs)).1.jScanner.jsonBuffer = none ↔
      emittedBytes (processBuffer cfg (appendJsonToBuffer j bs)).1.chunker
        = emittedBytes j.chunker ++ bufList (appendJsonToBuffer j bs).jScanner)
    ∧ ((processBuffer cfg (appendJsonToBuffer j bs)).1.jScanner.jsonBuffer = none →
        spliceLoop cfg rem j bs
          = .ok (.interior ((processBuffer cfg (appendJsonToBuffer j bs)).1.chunker
              ++ graftPairs (rem.drop 1)))) := by
  have hb : emittedBytes (processBuffer cfg (appendJsonToBuffer j bs)).1.chunker
        ++ bufList (processBuffer cfg (appendJsonToBuffer j bs)).1.jScanner
      = emittedBytes (appendJsonToBuffer j bs).chunker
        ++ bufList (appendJsonToBuffer j bs).jScanner :=
    processBufferF_bytes cfg _ _
  rw [appendJsonToBuffer_chunker] at hb
  constructor
  · constructor
    · intro hnone
      have hnil : bufList (processBuffer cfg (appendJsonToBuffer j bs)).1.jScanner = [] := by
        simp [bufList, hnone]
      rw [hnil, List.append_nil] at hb
      exact hb
    · intro hemit
      rw [hemit] at hb
      have hlen := congrArg List.length hb
      simp only [List.length_append] at hlen
      have hnil : bufList (processBuffer cfg (appendJsonToBuffer j bs)).1.jScanner = [] :=
        List.length_eq_zero.mp (by omega)
      have hinv : (processBuffer cfg (appendJsonToBuffer j bs)).1.jScanner.jsonBuffer = none
          ∨ bufList (processBuffer cfg (appendJsonToBuffer j bs)).1.jScanner ≠ [] :=
        processBufferF_buffer cfg _ _ (Or.inr hbs)
      rcases hinv with h | h
      · exact h
      · exact absurd hnil h
  · intro hnone
    unfold spliceLoop
    rw [if_pos hnone]

/-- The cursor entries used by the C4 witness. -/
def remW4 : List (List Nat × List Nat) := [([9], [1, 2]), ([8], [3, 4])]

/-- C4 witness: a concrete splice round whose cut lands exactly at the end of
the buffer; the loop returns the new pair followed by the grafted remainder of
the original tree. -/
theorem processBuffer_resync_witness :
    spliceLoop cfgSmall remW4 (newEmptyJsonChunker nsOK) [91, 49, 93]
      = .ok (Node.interior [(endOfDocumentKey, Node.leaf [91, 49, 93]),
          ([8], Node.leaf [3, 4])]) :=
  ((processBuffer_resync cfgSmall (newEmptyJsonChunker nsOK) [91, 49, 93] remW4
      (by decide)).2 rfl).trans rfl

/-- C3 (amended): every leaf of a successful full write except possibly the
final one has length at least minChunkSize. -/
theorem serializeJsonToAddr_minSize {ε : Type} (cfg : SplitterConfig) (ns : NodeStore ε)
    (bs : List Nat) (root : Node)
    (h : SerializeJsonToAddr cfg ns (.wrapped bs) = .ok root) :
    ∀ len ∈ (leafLens root).dropLast, cfg.minChunkSize ≤ len := by
  have hjc : (processBuffer cfg (appendJsonToBuffer (newEmptyJsonChunker ns) bs)).1.jCur
      = none := processBufferF_jCur cfg _ _
  simp only [SerializeJsonToAddr, MarshallJson] at h
  rw [JsonChunker.Done] at h
  rw [hjc] at h
  rw [doneFinalLeaf] at h
  cases hcl : createNewLeafChunk
      (processBuffer cfg (appendJsonToBuffer (newEmptyJsonChunker ns) bs)).1
      endOfDocumentKey
      (bufList (processBuffer cfg (appendJsonToBuffer (newEmptyJsonChunker ns) bs)).1.jScanner)
      with
  | error e => rw [hcl] at h; exact Except.noConfusion h
  | ok j3 =>
    obtain ⟨rfl, hns⟩ := createNewLeafChunk_ok _ _ _ _ hcl
    rw [hcl] at h
    simp only [Except.ok.injEq] at h
    subst h
    intro len hlen
    simp only [leafLens, List.map_append, List.map_cons, List.map_nil,
      List.dropLast_concat] at hlen
    obtain ⟨p, hp, rfl⟩ := List.mem_map.mp hlen
    rcases processBufferF_minSize cfg _ _ p hp with hmem | hsize
    · exact absurd hmem (List.not_mem_nil p)
    · exact hsize

/-- The document of the C3 counterexample: the array of two numbers 22 and 3. -/
def docC3 : List Nat := [91, 50, 50, 44, 51, 93]

/-- C3 counterexample: with the tiny configuration, the full write of docC3
cuts its first leaf only at the first scanner stop past the maximum size, so a
non-final leaf has length 3 > maxChunkSize = 2 — the claimed upper bound on
leaf lengths is false. -/
theorem serializeJsonToAddr_maxSize_cex :
    SerializeJsonToAddr cfgSmall nsOK (.wrapped docC3)
        = .ok (Node.interior [([2, 0, 0, 255], Node.leaf [91, 50, 50]),
            ([255], Node.leaf [44, 51, 93]), ([255], Node.leaf [])])
    ∧ ¬ (∀ len ∈ leafLens (Node.interior [([2, 0, 0, 255], Node.leaf [91, 50, 50]),
            ([255], Node.leaf [44, 51, 93]), ([255], Node.leaf [])]),
          len ≤ cfgSmall.maxChunkSize) :=
  ⟨rfl, by decide⟩

/-- C3 (amended) witness: the same concrete write satisfies the lower bound on
all non-final leaves. -/
theorem serializeJsonToAddr_minSize_witness :
    SerializeJsonToAddr cfgSmall nsOK (.wrapped docC3)
        = .ok (Node.interior [([2, 0, 0, 255], Node.leaf [91, 50, 50]),
            ([255], Node.leaf [44, 51, 93]), ([255], Node.leaf [])])
    ∧ ∀ len ∈ (leafLens (Node.interior [([2, 0, 0, 255], Node.leaf [91, 50, 50]),
            ([255], Node.leaf [44, 51, 93]), ([255], Node.leaf [])])).dropLast,
        cfgSmall.minChunkSize ≤ len :=
  ⟨rfl, serializeJsonToAddr_minSize cfgSmall nsOK docC3 _ rfl⟩

/-- The document of the C5 failing input: the array of the numbers 11 and 2. -/
def docC5 : List Nat := [91, 49, 49, 44, 50, 93]

/-- A store that rejects exactly the leaf that processBuffer tries to commit
for docC5 under cfgSmall, and accepts everything else. -/
def nsBad : NodeStore Unit := fun n =>
  match n with
  | .leaf [91, 49, 49] => some ()
  | _ => none

/-- C5: the store error raised while committing a leaf from processBuffer is
discarded by SerializeJsonToAddr (json_chunker.go line 57 ignores the error
result), so the write does not abort: the never-cut document bytes stay in the
buffer, the final store write succeeds, and a root is returned with no error —
contradicting the claim that the error is surfaced and no root returned. -/
theorem processBuffer_error_swallowed :
    nsBad (Node.leaf [91, 49, 49]) = some ()
    ∧ (processBuffer cfgSmall (appendJsonToBuffer (newEmptyJsonChunker nsBad) docC5)).2
        = some ()
    ∧ SerializeJsonToAddr cfgSmall nsBad (.wrapped docC5)
        = .ok (Node.interior [(endOfDocumentKey, Node.leaf docC5)]) :=
  ⟨rfl, rfl, rfl⟩

/-- A store in which every write fails. -/
def nsFail : NodeStore Unit := fun _ => some ()

/-- C9 witness: an indexed document is returned unchanged even under a store
in which every write fails, so no node can have been written. -/
theorem serializeJsonToAddr_indexed_witness :
    SerializeJsonToAddr cfgSmall nsFail (.indexed ⟨⟨Node.leaf [5]⟩⟩) = .ok (Node.leaf [5]) :=
  serializeJsonToAddr_indexed cfgSmall nsFail ⟨⟨Node.leaf [5]⟩⟩
